import Mathlib

/-!
Verification of the blog post index builder (`src/_old/src/pages/blog.tsx`,
`getStaticProps`) and the banner link labeler
(`src/src/components/blog-banner.tsx`, `BlogBanner`) of the personal-website
repository, via a shallow embedding of the relevant TypeScript into Lean.
-/

namespace Site

/-- A blog post front-matter record, as consumed by `getStaticProps` in
`src/_old/src/pages/blog.tsx`.  The grouping logic only inspects
`publishedAt`; the remaining display fields are carried along opaquely. -/
structure RawPost where
  slug : String
  title : String
  summary : String
  readingTime : String
  publishedAt : String
deriving DecidableEq

/-- A parsed calendar date (`month` is 1-based, as in ISO 8601). -/
structure Date where
  year : Nat
  month : Nat
  day : Nat
deriving DecidableEq

/-- Value of an ASCII digit character, `none` for non-digits. -/
def digitVal (c : Char) : Option Nat :=
  if 48 ≤ c.toNat ∧ c.toNat ≤ 57 then some (c.toNat - 48) else none

/-- Gregorian leap-year test. -/
def isLeapYear (y : Nat) : Bool :=
  (y % 4 == 0 && y % 100 != 0) || y % 400 == 0

/-- Number of days of month `m` (1-based) of year `y`. -/
def daysInMonth (y m : Nat) : Nat :=
  if m = 2 then (if isLeapYear y then 29 else 28)
  else if m = 4 ∨ m = 6 ∨ m = 9 ∨ m = 11 then 30
  else 31

/-- date-fns `parseISO`, restricted to the extended-format calendar dates
`YYYY-MM-DD` actually present in this repository's front matter.  Returns
`none` exactly when `parseISO` would return an Invalid Date: wrong shape,
non-digit components, month outside 1..12, or day outside the month. -/
def parseISO (s : String) : Option Date :=
  match s.data with
  | [y3, y2, y1, y0, c1, m1, m0, c2, d1, d0] =>
    if c1 = '-' ∧ c2 = '-' then
      match digitVal y3, digitVal y2, digitVal y1, digitVal y0,
            digitVal m1, digitVal m0, digitVal d1, digitVal d0 with
      | some a, some b, some c, some d, some e, some f, some g, some h =>
        let y := 1000 * a + 100 * b + 10 * c + d
        let mo := 10 * e + f
        let dy := 10 * g + h
        if 1 ≤ mo ∧ mo ≤ 12 ∧ 1 ≤ dy ∧ dy ≤ daysInMonth y mo then
          some ⟨y, mo, dy⟩
        else none
      | _, _, _, _, _, _, _, _ => none
    else none
  | _ => none

/-- Order key of a date, order-isomorphic to `Date.prototype.getTime()` on
the valid calendar dates produced by `parseISO` (all at local midnight). -/
def timeKey (d : Date) : Nat := d.year * 10000 + d.month * 100 + d.day

/-- Order key of a date's calendar month, order-isomorphic to the
month-start date. -/
def monthKey (d : Date) : Nat := d.year * 100 + d.month

/-- The localized full month names used by date-fns `format`'s `MMMM`
pattern (English locale), indexed by `getMonth()` (0-based). -/
def monthNames : List String :=
  ["January", "February", "March", "April", "May", "June",
   "July", "August", "September", "October", "November", "December"]

/-- Full month name of a 1-based month number. -/
def monthName (m : Nat) : String := monthNames.getD (m - 1) ("")

/-- date-fns `format`'s `yyyy` pattern: the year, zero-padded to four
digits (years produced by `parseISO` above are at most 9999). -/
def yyyyFormat (y : Nat) : String :=
  ⟨[Nat.digitChar (y / 1000 % 10), Nat.digitChar (y / 100 % 10),
    Nat.digitChar (y / 10 % 10), Nat.digitChar (y % 10)]⟩

/-- Model of `format(date, 'MMMM yyyy')` of date-fns on a valid date. -/
def formatMMMMyyyy (d : Date) : String :=
  monthName d.month ++ " " ++ yyyyFormat d.year

/-- One month group produced by `getStaticProps` (interface
`GroupedBlogPosts` in `src/_old/src/pages/blog.tsx`). -/
structure Group where
  month : String
  monthNumber : Nat
  blogPosts : List RawPost
deriving DecidableEq

/-- Model of `groups.find(g => g.month === month)` followed by
`group.blogPosts.push(blogPost)`: append `p` to the first group whose
`month` equals `m`; `none` when no group matches. -/
def pushToFirst (groups : List Group) (m : String) (p : RawPost) :
    Option (List Group) :=
  match groups with
  | [] => none
  | g :: gs =>
    if g.month = m then
      some ({ g with blogPosts := g.blogPosts ++ [p] } :: gs)
    else (pushToFirst gs m p).map (g :: ·)

/-- The body of the `reduce` callback in `getStaticProps`, after the month
label `m` and 0-based month number `mn` have been computed: push onto the
first matching group, else append a fresh group at the end. -/
def insertPost (groups : List Group) (m : String) (mn : Nat) (p : RawPost) :
    List Group :=
  match pushToFirst groups m p with
  | some gs => gs
  | none => groups ++ [⟨m, mn, [p]⟩]

/-- One step of the `reduce` in `getStaticProps`.  `format(parseISO(...),
'MMMM yyyy')` throws a RangeError (message "Invalid time value") on an
unparseable date, which aborts the build; this is modelled by `Except`.
`monthNumber` is `parseISO(...).getMonth()`, i.e. the 0-based month. -/
def addPost (groups : List Group) (p : RawPost) : Except String (List Group) :=
  match parseISO p.publishedAt with
  | none => Except.error ("Invalid time value")
  | some d => Except.ok (insertPost groups (formatMMMMyyyy d) (d.month - 1) p)

/-- The comparator semantics of
`blogPosts.sort((a, b) => parseISO(b.publishedAt).getTime() - parseISO(a.publishedAt).getTime())`:
`cmpLe a b` holds when `a` may stay before `b`, i.e. when the comparator
result is `<= 0`.  On an Invalid Date `getTime()` is NaN and the comparator
result NaN is treated by `Array.prototype.sort` as 0 (elements compare
equal), hence `true` in that case. -/
def cmpLe (a b : RawPost) : Bool :=
  match parseISO a.publishedAt, parseISO b.publishedAt with
  | some da, some db => timeKey db ≤ timeKey da
  | _, _ => true

/-- The `blogPosts.sort(...)` call: a stable sort by the comparator above
(ECMAScript requires `Array.prototype.sort` to be stable). -/
def sortPosts (posts : List RawPost) : List RawPost := posts.mergeSort cmpLe

/-- Model of `getStaticProps` of `src/_old/src/pages/blog.tsx`: sort all posts by
`publishedAt` descending, then group them by their `MMMM yyyy` label with
the `reduce`.  A throwing `format` call aborts the whole build with no
partial output, which `Except` models exactly. -/
def getStaticProps (posts : List RawPost) : Except String (List Group) :=
  (sortPosts posts).foldlM addPost []

/-! ### The spec's reference grouping algorithm (for the refinement claim) -/

/-- The `MMMM yyyy` label of a post ("" on an unparseable date; only used
where the date is valid). -/
def labelOf (p : RawPost) : String :=
  match parseISO p.publishedAt with
  | some d => formatMMMMyyyy d
  | none => ""

/-- Model of `parseISO(p.publishedAt).getMonth()`: the 0-based month number. -/
def monthNumberOf (p : RawPost) : Nat :=
  match parseISO p.publishedAt with
  | some d => d.month - 1
  | none => 0

/-- A month group as described by the spec's data model: a label and the
posts carrying it. -/
structure SpecGroup where
  monthLabel : String
  posts : List RawPost
deriving DecidableEq

/-- Modelled from the spec: one step of the reference fold, "appending each
post to the most-recently-created group if its computed month label matches
that group's label, otherwise starting a new group". -/
def specStep (groups : List SpecGroup) (p : RawPost) : List SpecGroup :=
  match groups.getLast? with
  | some g =>
    if g.monthLabel = labelOf p then
      groups.dropLast ++ [{ g with posts := g.posts ++ [p] }]
    else groups ++ [⟨labelOf p, [p]⟩]
  | none => [⟨labelOf p, [p]⟩]

/-- Modelled from the spec: the reference grouping, a fold over the
(already sorted) post sequence. -/
def specGrouping (sorted : List RawPost) : List SpecGroup :=
  sorted.foldl specStep []

/-! ### Banner link labeler (`src/src/components/blog-banner.tsx`) -/

/-- Model of `String.prototype.includes`: substring containment over the
characters. -/
def strStartsWith : List Char → List Char → Bool
  | _, [] => true
  | [], _ :: _ => false
  | a :: as, b :: bs => a = b && strStartsWith as bs

/-- Helper for `includes`: does `sub` occur in `hay` at some position? -/
def strContainsAux : List Char → List Char → Bool
  | [], sub => sub.isEmpty
  | a :: as, sub => strStartsWith (a :: as) sub || strContainsAux as sub

/-- JavaScript `s.includes(sub)`. -/
def includes (s sub : String) : Bool := strContainsAux s.data sub.data

def isMediumUrl (url : String) : Bool :=
  includes url ("javascript.plainenglish.io")

def isLogRocketUrl (url : String) : Bool :=
  includes url ("blog.logrocket.com")

def isFreeCodeCampUrl (url : String) : Bool :=
  includes url ("freecodecamp.org")

/-- The icon components used inside the banner link. -/
inductive BannerIcon
  | rocket
  | medium
  | freeCodeCamp
deriving DecidableEq

/-- The nested conditional inside the `Link` element of `BlogBanner`:
label text and optional icon, first match wins. -/
def classifyUrl (url : String) : String × Option BannerIcon :=
  if isLogRocketUrl url then ("LogRocket", some BannerIcon.rocket)
  else if isMediumUrl url then ("Medium", some BannerIcon.medium)
  else if isFreeCodeCampUrl url then ("FreeCodeCamp", some BannerIcon.freeCodeCamp)
  else ("external", none)

/-- The link-rendering outcome of `BlogBanner`: either no `Link` element at
all, or a link with its href, label text and optional icon. -/
inductive BannerLink
  | noLink
  | link (href : String) (label : String) (icon : Option BannerIcon)
deriving DecidableEq

/-- The `Link` element rendered by `BlogBanner`
(`src/src/components/blog-banner.tsx`): the link sits inside the
`{banner && ...}` branch and is itself guarded by `{externalUrl && ...}`,
so it is rendered only when both strings are present and non-empty (JSX
renders nothing for `undefined` and for the falsy empty string). -/
def renderBannerLink (banner : String) (externalUrl : Option String) :
    BannerLink :=
  if banner = "" then BannerLink.noLink
  else
    match externalUrl with
    | none => BannerLink.noLink
    | some url =>
      if url = "" then BannerLink.noLink
      else BannerLink.link url (classifyUrl url).1 (classifyUrl url).2

/-! ### Facts about dates, keys and month labels -/

lemma digitVal_lt_ten {c : Char} {v : Nat} (h : digitVal c = some v) : v < 10 := by
  unfold digitVal at h
  split at h
  · next hc => simp only [Option.some.injEq] at h; omega
  · simp at h

lemma daysInMonth_le (y m : Nat) : daysInMonth y m ≤ 31 := by
  unfold daysInMonth
  split
  · split <;> omega
  · split <;> omega

lemma parseISO_bounds {s : String} {d : Date} (h : parseISO s = some d) :
    1 ≤ d.month ∧ d.month ≤ 12 ∧ d.year ≤ 9999 ∧ 1 ≤ d.day ∧ d.day ≤ 31 := by
  unfold parseISO at h
  split at h
  · split at h
    · split at h
      · next a b c dd e f g hh ha hb hc hd he hf hg hhh =>
        dsimp only at h
        split at h
        · next hcond =>
          simp only [Option.some.injEq] at h
          subst h
          have := digitVal_lt_ten ha
          have := digitVal_lt_ten hb
          have := digitVal_lt_ten hc
          have := digitVal_lt_ten hd
          have := daysInMonth_le (1000 * a + 100 * b + 10 * c + dd) (10 * e + f)
          simp only at hcond ⊢
          omega
        · simp at h
      · simp at h
    · simp at h
  · simp at h

lemma timeKey_eq (d : Date) : timeKey d = monthKey d * 100 + d.day := by
  unfold timeKey monthKey; ring

lemma monthNames_getD_no_space (k : Nat) : ' ' ∉ (monthNames.getD k ("")).data := by
  rcases Nat.lt_or_ge k 12 with h | h
  · interval_cases k <;> decide
  · rw [List.getD_eq_getElem?_getD, List.getElem?_eq_none (by simp [monthNames]; omega)]
    simp

lemma monthName_no_space (m : Nat) : ' ' ∉ (monthName m).data :=
  monthNames_getD_no_space (m - 1)

lemma monthName_inj : ∀ m₁ < 13, ∀ m₂ < 13, 1 ≤ m₁ → 1 ≤ m₂ →
    monthName m₁ = monthName m₂ → m₁ = m₂ := by decide

lemma digitChar_inj : ∀ a < 10, ∀ b < 10, Nat.digitChar a = Nat.digitChar b → a = b := by
  decide

lemma yyyyFormat_inj {y₁ y₂ : Nat} (h₁ : y₁ ≤ 9999) (h₂ : y₂ ≤ 9999)
    (h : yyyyFormat y₁ = yyyyFormat y₂) : y₁ = y₂ := by
  have hd : [Nat.digitChar (y₁ / 1000 % 10), Nat.digitChar (y₁ / 100 % 10),
      Nat.digitChar (y₁ / 10 % 10), Nat.digitChar (y₁ % 10)]
      = [Nat.digitChar (y₂ / 1000 % 10), Nat.digitChar (y₂ / 100 % 10),
        Nat.digitChar (y₂ / 10 % 10), Nat.digitChar (y₂ % 10)] :=
    congrArg String.data h
  simp only [List.cons.injEq, and_true] at hd
  obtain ⟨e3, e2, e1, e0⟩ := hd
  have g3 := digitChar_inj _ (Nat.mod_lt _ (by omega)) _ (Nat.mod_lt _ (by omega)) e3
  have g2 := digitChar_inj _ (Nat.mod_lt _ (by omega)) _ (Nat.mod_lt _ (by omega)) e2
  have g1 := digitChar_inj _ (Nat.mod_lt _ (by omega)) _ (Nat.mod_lt _ (by omega)) e1
  have g0 := digitChar_inj _ (Nat.mod_lt _ (by omega)) _ (Nat.mod_lt _ (by omega)) e0
  omega

lemma formatMMMMyyyy_data (d : Date) :
    (formatMMMMyyyy d).data
      = (monthName d.month).data ++ ' ' :: (yyyyFormat d.year).data := by
  show ((monthName d.month ++ " ") ++ yyyyFormat d.year).data = _
  rw [String.data_append, String.data_append]
  have hsp : (" " : String).data = [' '] := rfl
  rw [hsp, List.append_assoc, List.singleton_append]

lemma append_space_inj : ∀ {a₁ a₂ b₁ b₂ : List Char}, ' ' ∉ a₁ → ' ' ∉ a₂ →
    a₁ ++ ' ' :: b₁ = a₂ ++ ' ' :: b₂ → a₁ = a₂ ∧ b₁ = b₂ := by
  intro a₁
  induction a₁ with
  | nil =>
    intro a₂ b₁ b₂ _ h₂ h
    cases a₂ with
    | nil => simpa using h
    | cons c cs =>
      simp only [List.nil_append, List.cons_append, List.cons.injEq] at h
      obtain ⟨h1, -⟩ := h
      subst h1
      exact absurd (List.mem_cons_self _ _) h₂
  | cons c cs ih =>
    intro a₂ b₁ b₂ h₁ h₂ h
    cases a₂ with
    | nil =>
      simp only [List.cons_append, List.nil_append, List.cons.injEq] at h
      obtain ⟨h1, -⟩ := h
      subst h1
      exact absurd (List.mem_cons_self _ _) h₁
    | cons e es =>
      simp only [List.cons_append, List.cons.injEq] at h
      obtain ⟨h1, h2⟩ := h
      have hr := ih (fun hm => h₁ (List.mem_cons_of_mem _ hm))
        (fun hm => h₂ (List.mem_cons_of_mem _ hm)) h2
      exact ⟨by rw [h1, hr.1], hr.2⟩

lemma formatMMMMyyyy_inj {d₁ d₂ : Date}
    (hm₁ : 1 ≤ d₁.month ∧ d₁.month ≤ 12) (hy₁ : d₁.year ≤ 9999)
    (hm₂ : 1 ≤ d₂.month ∧ d₂.month ≤ 12) (hy₂ : d₂.year ≤ 9999) :
    formatMMMMyyyy d₁ = formatMMMMyyyy d₂ ↔ monthKey d₁ = monthKey d₂ := by
  constructor
  · intro h
    have hd := congrArg String.data h
    rw [formatMMMMyyyy_data, formatMMMMyyyy_data] at hd
    obtain ⟨hmn, hyy⟩ :=
      append_space_inj (monthName_no_space _) (monthName_no_space _) hd
    have hm : d₁.month = d₂.month :=
      monthName_inj d₁.month (by omega) d₂.month (by omega) (by omega) (by omega)
        (congrArg String.mk hmn)
    have hy : d₁.year = d₂.year := yyyyFormat_inj hy₁ hy₂ (congrArg String.mk hyy)
    unfold monthKey
    omega
  · intro h
    have hmy : d₁.month = d₂.month ∧ d₁.year = d₂.year := by
      unfold monthKey at h; omega
    unfold formatMMMMyyyy
    rw [hmy.1, hmy.2]

/-! ### Post-level keys and validity -/

/-- A post whose `publishedAt` parses to a valid date. -/
def validPost (p : RawPost) : Prop := (parseISO p.publishedAt).isSome

instance validPost_decidable (p : RawPost) : Decidable (validPost p) :=
  inferInstanceAs (Decidable ((parseISO p.publishedAt).isSome = true))

/-- Time-order key of a post, `parseISO(p.publishedAt).getTime()` (0 if invalid;
only used on valid posts). -/
def pKey (p : RawPost) : Nat :=
  match parseISO p.publishedAt with
  | some d => timeKey d
  | none => 0

/-- Calendar-month order key of a post's publication date. -/
def pMonthKey (p : RawPost) : Nat :=
  match parseISO p.publishedAt with
  | some d => monthKey d
  | none => 0

lemma labelOf_eq_iff {p q : RawPost} (hp : validPost p) (hq : validPost q) :
    labelOf p = labelOf q ↔ pMonthKey p = pMonthKey q := by
  obtain ⟨dp, hdp⟩ := Option.isSome_iff_exists.mp hp
  obtain ⟨dq, hdq⟩ := Option.isSome_iff_exists.mp hq
  have bp := parseISO_bounds hdp
  have bq := parseISO_bounds hdq
  simp only [labelOf, pMonthKey, hdp, hdq]
  exact formatMMMMyyyy_inj ⟨bp.1, bp.2.1⟩ bp.2.2.1 ⟨bq.1, bq.2.1⟩ bq.2.2.1

lemma pMonthKey_mono {p q : RawPost} (hp : validPost p) (hq : validPost q)
    (h : pKey p ≤ pKey q) : pMonthKey p ≤ pMonthKey q := by
  obtain ⟨dp, hdp⟩ := Option.isSome_iff_exists.mp hp
  obtain ⟨dq, hdq⟩ := Option.isSome_iff_exists.mp hq
  have bp := parseISO_bounds hdp
  have bq := parseISO_bounds hdq
  simp only [pKey, hdp, hdq] at h
  simp only [pMonthKey, hdp, hdq]
  have ep := timeKey_eq dp
  have eq' := timeKey_eq dq
  omega

/-! ### Invariants of the grouping fold -/

/-- Invariant of a single group during the fold: non-empty, every post in
it is valid and carries the group's label, and the posts are sorted newest
first. -/
def GroupWF (g : Group) : Prop :=
  g.blogPosts ≠ [] ∧
  (∀ p ∈ g.blogPosts, validPost p ∧ labelOf p = g.month) ∧
  g.blogPosts.Pairwise (fun a b => pKey b ≤ pKey a)

/-- Month key of a group, read off its first post. -/
def gKey (g : Group) : Nat :=
  match g.blogPosts with
  | p :: _ => pMonthKey p
  | [] => 0

/-- Invariant of the whole group list during the fold: well-formed groups
with strictly decreasing month keys. -/
def GroupsWF (gs : List Group) : Prop :=
  (∀ g ∈ gs, GroupWF g) ∧ gs.Pairwise (fun g₁ g₂ => gKey g₂ < gKey g₁)

/-- The fold step of `getStaticProps`, specialised to a valid post. -/
def stepOf (groups : List Group) (p : RawPost) : List Group :=
  insertPost groups (labelOf p) (monthNumberOf p) p

/-- The "append to the most recently created group" step that the spec
describes; under the invariant it coincides with `stepOf`. -/
def lastStep (groups : List Group) (p : RawPost) : List Group :=
  match groups.getLast? with
  | some g =>
    if g.month = labelOf p then
      groups.dropLast ++ [{ g with blogPosts := g.blogPosts ++ [p] }]
    else groups ++ [⟨labelOf p, monthNumberOf p, [p]⟩]
  | none => [⟨labelOf p, monthNumberOf p, [p]⟩]

lemma addPost_eq_ok {p : RawPost} (hv : validPost p) (gs : List Group) :
    addPost gs p = Except.ok (stepOf gs p) := by
  obtain ⟨d, hd⟩ := Option.isSome_iff_exists.mp hv
  simp [addPost, stepOf, labelOf, monthNumberOf, hd]

lemma pushToFirst_eq_none_iff (gs : List Group) (m : String) (p : RawPost) :
    pushToFirst gs m p = none ↔ ∀ g ∈ gs, g.month ≠ m := by
  induction gs with
  | nil => simp [pushToFirst]
  | cons g gs ih =>
    simp only [pushToFirst]
    split
    · next hg => simp [hg]
    · next hg => simp [Option.map_eq_none', ih, hg]

lemma pushToFirst_concat {init : List Group} {last : Group} {m : String}
    (p : RawPost) (hinit : ∀ g ∈ init, g.month ≠ m) (hl : last.month = m) :
    pushToFirst (init ++ [last]) m p
      = some (init ++ [{ last with blogPosts := last.blogPosts ++ [p] }]) := by
  induction init with
  | nil => simp [pushToFirst, hl]
  | cons g gs ih =>
    have hg : g.month ≠ m := hinit g (List.mem_cons_self _ _)
    simp only [List.cons_append, pushToFirst, if_neg hg, List.append_eq]
    rw [ih (fun g' hg' => hinit g' (List.mem_cons_of_mem _ hg'))]
    rfl

lemma groupWF_exists_head {g : Group} (h : GroupWF g) :
    ∃ p ps, g.blogPosts = p :: ps ∧ gKey g = pMonthKey p := by
  obtain ⟨hne, -, -⟩ := h
  cases hbp : g.blogPosts with
  | nil => exact absurd hbp hne
  | cons p ps => exact ⟨p, ps, rfl, by simp [gKey, hbp]⟩

lemma pMonthKey_eq_gKey {g : Group} (h : GroupWF g) {p : RawPost}
    (hp : p ∈ g.blogPosts) : pMonthKey p = gKey g := by
  obtain ⟨q, ps, hbp, hk⟩ := groupWF_exists_head h
  have hq : q ∈ g.blogPosts := hbp ▸ List.mem_cons_self _ _
  obtain ⟨hqv, hql⟩ := h.2.1 q hq
  obtain ⟨hpv, hpl⟩ := h.2.1 p hp
  have : labelOf p = labelOf q := by rw [hpl, hql]
  have := (labelOf_eq_iff hpv hqv).mp this
  omega

lemma month_ne_of_key_lt {g : Group} (hwf : GroupWF g) {p : RawPost}
    (hv : validPost p) (hlt : pMonthKey p < gKey g) : g.month ≠ labelOf p := by
  obtain ⟨q, ps, hbp, hk⟩ := groupWF_exists_head hwf
  have hq : q ∈ g.blogPosts := hbp ▸ List.mem_cons_self _ _
  obtain ⟨hqv, hql⟩ := hwf.2.1 q hq
  intro hEq
  have : pMonthKey q = pMonthKey p :=
    (labelOf_eq_iff hqv hv).mp (hql.trans hEq)
  omega

lemma key_lt_of_month_ne {g : Group} (hwf : GroupWF g) {p : RawPost}
    (hv : validPost p) (hle : pMonthKey p ≤ gKey g) (hne : g.month ≠ labelOf p) :
    pMonthKey p < gKey g := by
  obtain ⟨q, ps, hbp, hk⟩ := groupWF_exists_head hwf
  have hq : q ∈ g.blogPosts := hbp ▸ List.mem_cons_self _ _
  obtain ⟨hqv, hql⟩ := hwf.2.1 q hq
  rcases Nat.lt_or_ge (pMonthKey p) (gKey g) with h | h
  · exact h
  · exfalso
    have hkeq : pMonthKey p = pMonthKey q := by omega
    have : labelOf p = labelOf q := (labelOf_eq_iff hv hqv).mpr hkeq
    exact hne (by rw [← hql, this])

lemma pMonthKey_le_gKey {gs : List Group} {p : RawPost} (hv : validPost p)
    (hwf : ∀ g ∈ gs, GroupWF g)
    (hcross : ∀ g ∈ gs, ∀ q ∈ g.blogPosts, pKey p ≤ pKey q) :
    ∀ g ∈ gs, pMonthKey p ≤ gKey g := by
  intro g hg
  obtain ⟨q, ps, hbp, hk⟩ := groupWF_exists_head (hwf g hg)
  have hq : q ∈ g.blogPosts := hbp ▸ List.mem_cons_self _ _
  have hmono := pMonthKey_mono hv ((hwf g hg).2.1 q hq).1 (hcross g hg q hq)
  omega

/-- The key step lemma: on a state satisfying the invariant, with a valid
post no newer than anything already placed, the code's find-first insertion
acts on the most recently created group, preserves the invariant, and
appends the post at the very end of the flattened output. -/
lemma lastStep_main {gs : List Group} {p : RawPost} (hv : validPost p)
    (hwf : GroupsWF gs)
    (hcross : ∀ g ∈ gs, ∀ q ∈ g.blogPosts, pKey p ≤ pKey q) :
    stepOf gs p = lastStep gs p ∧
    GroupsWF (lastStep gs p) ∧
    (lastStep gs p).flatMap Group.blogPosts
      = gs.flatMap Group.blogPosts ++ [p] := by
  obtain ⟨hwfg, hwfp⟩ := hwf
  rcases List.eq_nil_or_concat gs with rfl | ⟨init, last, hgs⟩
  · refine ⟨rfl, ⟨?_, by simp [lastStep]⟩, by simp [lastStep]⟩
    intro g hg
    simp only [lastStep, List.getLast?_nil, List.mem_singleton] at hg
    subst hg
    refine ⟨by simp, ?_, by simp⟩
    intro q hq
    have : q = p := by simpa using hq
    subst this
    exact ⟨hv, rfl⟩
  · rw [List.concat_eq_append] at hgs
    subst hgs
    have hlast_mem : last ∈ init ++ [last] :=
      List.mem_append_right _ (List.mem_cons_self _ _)
    have hwfl : GroupWF last := hwfg last hlast_mem
    have hpa := List.pairwise_append.mp hwfp
    have hlt : ∀ g ∈ init, gKey last < gKey g := fun g hg =>
      hpa.2.2 g hg last (List.mem_cons_self _ _)
    have hple : pMonthKey p ≤ gKey last :=
      pMonthKey_le_gKey hv hwfg hcross last hlast_mem
    have hinit_ne : ∀ g ∈ init, g.month ≠ labelOf p := fun g hg =>
      month_ne_of_key_lt (hwfg g (List.mem_append_left _ hg)) hv
        (lt_of_le_of_lt hple (hlt g hg))
    by_cases hm : last.month = labelOf p
    · -- the post joins the most recently created group
      have hpush := pushToFirst_concat p hinit_ne hm
      have hstep : stepOf (init ++ [last]) p
          = init ++ [{ last with blogPosts := last.blogPosts ++ [p] }] := by
        simp [stepOf, insertPost, hpush]
      have hlaststep : lastStep (init ++ [last]) p
          = init ++ [{ last with blogPosts := last.blogPosts ++ [p] }] := by
        simp [lastStep, List.getLast?_concat, hm, List.dropLast_concat]
      obtain ⟨q, ps, hbp, hk⟩ := groupWF_exists_head hwfl
      have hupd_wf : GroupWF { last with blogPosts := last.blogPosts ++ [p] } := by
        refine ⟨by simp, ?_, ?_⟩
        · intro r hr
          rcases List.mem_append.mp hr with hr | hr
          · exact hwfl.2.1 r hr
          · have : r = p := by simpa using hr
            subst this
            exact ⟨hv, hm.symm⟩
        · refine List.pairwise_append.mpr ⟨hwfl.2.2, by simp, ?_⟩
          intro a ha b hb
          have : b = p := by simpa using hb
          subst this
          exact hcross last hlast_mem a ha
      have hgkey : gKey { last with blogPosts := last.blogPosts ++ [p] }
          = gKey last := by
        simp [gKey, hbp]
      refine ⟨hstep.trans hlaststep.symm, ⟨?_, ?_⟩, ?_⟩
      · rw [hlaststep]
        intro g hg
        rcases List.mem_append.mp hg with hg | hg
        · exact hwfg g (List.mem_append_left _ hg)
        · have hgg : g = { last with blogPosts := last.blogPosts ++ [p] } := by
            simpa using hg
          subst hgg
          exact hupd_wf
      · rw [hlaststep]
        refine List.pairwise_append.mpr ⟨hpa.1, by simp, ?_⟩
        intro a ha b hb
        have hb' : b = { last with blogPosts := last.blogPosts ++ [p] } := by
          simpa using hb
        subst hb'
        rw [hgkey]
        exact hlt a ha
      · rw [hlaststep]
        simp [List.flatMap_append, List.append_assoc]
    · -- the post starts a new group at the end
      have hnone : pushToFirst (init ++ [last]) (labelOf p) p = none :=
        (pushToFirst_eq_none_iff _ _ _).mpr (by
          intro g hg
          rcases List.mem_append.mp hg with hg | hg
          · exact hinit_ne g hg
          · have : g = last := by simpa using hg
            subst this
            exact hm)
      have hstep : stepOf (init ++ [last]) p
          = (init ++ [last]) ++ [⟨labelOf p, monthNumberOf p, [p]⟩] := by
        simp [stepOf, insertPost, hnone]
      have hlaststep : lastStep (init ++ [last]) p
          = (init ++ [last]) ++ [⟨labelOf p, monthNumberOf p, [p]⟩] := by
        simp [lastStep, List.getLast?_concat, hm]
      have hnew_wf : GroupWF ⟨labelOf p, monthNumberOf p, [p]⟩ := by
        refine ⟨by simp, ?_, by simp⟩
        intro q hq
        have : q = p := by simpa using hq
        subst this
        exact ⟨hv, rfl⟩
      have hkey_lt : ∀ g ∈ init ++ [last],
          gKey ⟨labelOf p, monthNumberOf p, [p]⟩ < gKey g := by
        intro g hg
        have hle : pMonthKey p ≤ gKey g := pMonthKey_le_gKey hv hwfg hcross g hg
        have hne : g.month ≠ labelOf p := by
          rcases List.mem_append.mp hg with hg' | hg'
          · exact hinit_ne g hg'
          · have : g = last := by simpa using hg'
            subst this
            exact hm
        have := key_lt_of_month_ne (hwfg g hg) hv hle hne
        simpa [gKey] using this
      refine ⟨hstep.trans hlaststep.symm, ⟨?_, ?_⟩, ?_⟩
      · rw [hlaststep]
        intro g hg
        rcases List.mem_append.mp hg with hg | hg
        · exact hwfg g hg
        · have hgg : g = ⟨labelOf p, monthNumberOf p, [p]⟩ := by simpa using hg
          subst hgg
          exact hnew_wf
      · rw [hlaststep]
        refine List.pairwise_append.mpr ⟨hwfp, by simp, ?_⟩
        intro a ha b hb
        have hb' : b = ⟨labelOf p, monthNumberOf p, [p]⟩ := by simpa using hb
        subst hb'
        exact hkey_lt a ha
      · rw [hlaststep]
        simp [List.flatMap_append, List.append_assoc]

/-- The fold of `getStaticProps` over a sorted list of valid posts:
invariant preservation, exact flattened contents, and agreement with the
last-group-only stepping. -/
lemma foldl_stepOf_main :
    ∀ (l : List RawPost) (gs : List Group),
    (∀ p ∈ l, validPost p) →
    l.Pairwise (fun a b => pKey b ≤ pKey a) →
    GroupsWF gs →
    (∀ g ∈ gs, ∀ q ∈ g.blogPosts, ∀ p ∈ l, pKey p ≤ pKey q) →
    GroupsWF (l.foldl stepOf gs) ∧
    (l.foldl stepOf gs).flatMap Group.blogPosts
      = gs.flatMap Group.blogPosts ++ l ∧
    l.foldl stepOf gs = l.foldl lastStep gs := by
  intro l
  induction l with
  | nil => intro gs _ _ hwf _; exact ⟨hwf, by simp, rfl⟩
  | cons p l ih =>
    intro gs hval hsort hwf hcross
    have hv : validPost p := hval p (List.mem_cons_self _ _)
    have hcp : ∀ g ∈ gs, ∀ q ∈ g.blogPosts, pKey p ≤ pKey q := fun g hg q hq =>
      hcross g hg q hq p (List.mem_cons_self _ _)
    obtain ⟨hstep, hwf', hflat⟩ := lastStep_main hv hwf hcp
    have hval' : ∀ r ∈ l, validPost r := fun r hr =>
      hval r (List.mem_cons_of_mem _ hr)
    have hsortp := (List.pairwise_cons.mp hsort).1
    have hsort' := (List.pairwise_cons.mp hsort).2
    have hcross' : ∀ g ∈ lastStep gs p, ∀ q ∈ g.blogPosts, ∀ r ∈ l,
        pKey r ≤ pKey q := by
      intro g hg q hq r hr
      have hqmem : q ∈ (lastStep gs p).flatMap Group.blogPosts :=
        List.mem_flatMap.mpr ⟨g, hg, hq⟩
      rw [hflat] at hqmem
      rcases List.mem_append.mp hqmem with hq' | hq'
      · obtain ⟨g', hg', hqg'⟩ := List.mem_flatMap.mp hq'
        exact hcross g' hg' q hqg' r (List.mem_cons_of_mem _ hr)
      · have : q = p := by simpa using hq'
        subst this
        exact hsortp r hr
    obtain ⟨hwf2, hflat2, hagree⟩ := ih (lastStep gs p) hval' hsort' hwf' hcross'
    refine ⟨?_, ?_, ?_⟩
    · rw [List.foldl_cons, hstep]
      exact hwf2
    · rw [List.foldl_cons, hstep, hflat2, hflat]
      simp
    · rw [List.foldl_cons, List.foldl_cons, hstep, hagree]

/-- On a list of valid posts the `Except` fold succeeds and is the pure
fold. -/
lemma foldlM_addPost_ok :
    ∀ (l : List RawPost) (gs : List Group), (∀ p ∈ l, validPost p) →
    l.foldlM addPost gs = Except.ok (l.foldl stepOf gs) := by
  intro l
  induction l with
  | nil => intro gs _; rfl
  | cons p l ih =>
    intro gs hval
    rw [List.foldlM_cons, addPost_eq_ok (hval p (List.mem_cons_self _ _))]
    exact ih (stepOf gs p) (fun r hr => hval r (List.mem_cons_of_mem _ hr))

/-- A successful fold means every processed post had a parseable date. -/
lemma foldlM_addPost_valid :
    ∀ (l : List RawPost) (gs out : List Group),
    l.foldlM addPost gs = Except.ok out → ∀ p ∈ l, validPost p := by
  intro l
  induction l with
  | nil => intro gs out _ p hp; simp at hp
  | cons q l ih =>
    intro gs out h p hp
    rw [List.foldlM_cons] at h
    cases hq : parseISO q.publishedAt with
    | none =>
      have he : addPost gs q = Except.error ("Invalid time value") := by
        simp [addPost, hq]
      rw [he] at h
      exact Except.noConfusion
        (show Except.error ("Invalid time value") = Except.ok out from h)
    | some d =>
      have hqv : validPost q := by simp [validPost, hq]
      rcases List.mem_cons.mp hp with rfl | hp'
      · exact hqv
      · rw [addPost_eq_ok hqv] at h
        exact ih (stepOf gs q) out h p hp'

/-- An unparseable date anywhere in the processed list makes the whole
fold fail with the RangeError message, with no partial output. -/
lemma foldlM_addPost_error :
    ∀ (l : List RawPost) (gs : List Group) (p : RawPost), p ∈ l →
    parseISO p.publishedAt = none →
    l.foldlM addPost gs = Except.error ("Invalid time value") := by
  intro l
  induction l with
  | nil => intro gs p hp _; simp at hp
  | cons q l ih =>
    intro gs p hp hbad
    rw [List.foldlM_cons]
    cases hq : parseISO q.publishedAt with
    | none =>
      have he : addPost gs q = Except.error ("Invalid time value") := by
        simp [addPost, hq]
      rw [he]
      rfl
    | some d =>
      have hqv : validPost q := by simp [validPost, hq]
      rw [addPost_eq_ok hqv]
      have hp' : p ∈ l := by
        rcases List.mem_cons.mp hp with rfl | hp'
        · rw [hq] at hbad; simp at hbad
        · exact hp'
      exact ih (stepOf gs q) p hp' hbad

/-! ### The sort -/

/-- Proof-side total descending comparator; agrees with `cmpLe` on valid
posts. -/
def cmpKey (a b : RawPost) : Bool := pKey b ≤ pKey a

lemma cmpLe_eq_cmpKey {a b : RawPost} (ha : validPost a) (hb : validPost b) :
    cmpLe a b = cmpKey a b := by
  obtain ⟨da, hda⟩ := Option.isSome_iff_exists.mp ha
  obtain ⟨db, hdb⟩ := Option.isSome_iff_exists.mp hb
  simp [cmpLe, cmpKey, pKey, hda, hdb]

lemma sortPosts_eq_mergeSort_cmpKey {posts : List RawPost}
    (hval : ∀ p ∈ posts, validPost p) :
    sortPosts posts = posts.mergeSort cmpKey := by
  have h := List.map_mergeSort (f := id) (l := posts)
    (fun a ha b hb => cmpLe_eq_cmpKey (hval a ha) (hval b hb))
  simpa [sortPosts] using h

lemma cmpKey_trans : ∀ (a b c : RawPost), cmpKey a b → cmpKey b c → cmpKey a c := by
  intro a b c hab hbc
  simp only [cmpKey, decide_eq_true_eq] at *
  omega

lemma cmpKey_total : ∀ (a b : RawPost), cmpKey a b || cmpKey b a := by
  intro a b
  simp only [cmpKey, Bool.or_eq_true, decide_eq_true_eq]
  omega

lemma sortPosts_sorted {posts : List RawPost}
    (hval : ∀ p ∈ posts, validPost p) :
    (sortPosts posts).Pairwise (fun a b => pKey b ≤ pKey a) := by
  rw [sortPosts_eq_mergeSort_cmpKey hval]
  have h := List.sorted_mergeSort cmpKey_trans cmpKey_total posts
  exact h.imp (by intro a b hab; simpa [cmpKey] using hab)

lemma sortPosts_mem {posts : List RawPost} {p : RawPost} :
    p ∈ sortPosts posts ↔ p ∈ posts := by
  simp [sortPosts]

lemma sortPosts_perm (posts : List RawPost) : (sortPosts posts).Perm posts :=
  List.mergeSort_perm posts cmpLe

lemma sortPosts_pairwise_cmpLe {posts : List RawPost}
    (hval : ∀ p ∈ posts, validPost p) :
    (sortPosts posts).Pairwise (fun a b => cmpLe a b = true) := by
  have hs := sortPosts_sorted hval
  have hmem : ∀ p ∈ sortPosts posts, validPost p := fun p hp =>
    hval p (sortPosts_mem.mp hp)
  exact List.Pairwise.imp_of_mem (fun ha hb hr => by
    rw [cmpLe_eq_cmpKey (hmem _ ha) (hmem _ hb)]
    simpa [cmpKey] using hr) hs

lemma sortPosts_idem {posts : List RawPost}
    (hval : ∀ p ∈ posts, validPost p) :
    sortPosts (sortPosts posts) = sortPosts posts := by
  show (sortPosts posts).mergeSort cmpLe = sortPosts posts
  exact List.mergeSort_of_sorted (sortPosts_pairwise_cmpLe hval)

/-! ### Assembled facts about a successful build -/

/-- Everything a successful `getStaticProps` run guarantees: the output
satisfies the invariant, its flattened contents are exactly the sorted
input, and the output equals both sorted folds. -/
lemma getStaticProps_ok_main {posts : List RawPost} {gs : List Group}
    (h : getStaticProps posts = Except.ok gs) :
    GroupsWF gs ∧
    gs.flatMap Group.blogPosts = sortPosts posts ∧
    gs = (sortPosts posts).foldl stepOf [] ∧
    gs = (sortPosts posts).foldl lastStep [] := by
  have hval : ∀ p ∈ sortPosts posts, validPost p :=
    foldlM_addPost_valid _ _ _ h
  have hvalp : ∀ p ∈ posts, validPost p := fun p hp =>
    hval p (sortPosts_mem.mpr hp)
  have hsort := sortPosts_sorted hvalp
  have hok := foldlM_addPost_ok (sortPosts posts) [] hval
  have hgs : gs = (sortPosts posts).foldl stepOf [] := by
    have := hok.symm.trans h
    injection this with h'
    exact h'.symm
  have hmain := foldl_stepOf_main (sortPosts posts) [] hval hsort
    ⟨by simp, by simp⟩ (by simp)
  subst hgs
  exact ⟨hmain.1, by simpa using hmain.2.1, rfl, hmain.2.2⟩

/-! ### Relating the fold to the spec's reference fold -/

/-- Projection of a code group to its observable part. -/
def projGroup (g : Group) : String × List RawPost := (g.month, g.blogPosts)

/-- Projection of a spec group to its observable part. -/
def projSpecGroup (g : SpecGroup) : String × List RawPost := (g.monthLabel, g.posts)

lemma lastStep_proj {gs : List Group} {sgs : List SpecGroup}
    (h : gs.map projGroup = sgs.map projSpecGroup) (p : RawPost) :
    (lastStep gs p).map projGroup = (specStep sgs p).map projSpecGroup := by
  rcases List.eq_nil_or_concat gs with rfl | ⟨init, last, hgs⟩
  · rcases List.eq_nil_or_concat sgs with rfl | ⟨sinit, slast, hsgs⟩
    · simp [lastStep, specStep, projGroup, projSpecGroup]
    · rw [List.concat_eq_append] at hsgs
      subst hsgs
      simp at h
  · rw [List.concat_eq_append] at hgs
    subst hgs
    rcases List.eq_nil_or_concat sgs with rfl | ⟨sinit, slast, hsgs⟩
    · simp at h
    · rw [List.concat_eq_append] at hsgs
      subst hsgs
      rw [List.map_append, List.map_append] at h
      obtain ⟨hinit, hlast⟩ := List.append_inj' h (by simp)
      have hlast' : projGroup last = projSpecGroup slast := by simpa using hlast
      have hmonth : last.month = slast.monthLabel :=
        congrArg Prod.fst hlast'
      have hposts : last.blogPosts = slast.posts :=
        congrArg Prod.snd hlast'
      by_cases hm : last.month = labelOf p
      · rw [lastStep, specStep, List.getLast?_concat, List.getLast?_concat]
        simp only [if_pos hm, if_pos (hmonth ▸ hm), List.dropLast_concat,
          List.map_append]
        rw [hinit]
        simp [projGroup, projSpecGroup, hmonth, hposts]
      · rw [lastStep, specStep, List.getLast?_concat, List.getLast?_concat]
        simp only [if_neg hm, if_neg (hmonth ▸ hm), List.map_append]
        rw [hinit]
        simp [projGroup, projSpecGroup, hmonth, hposts]

lemma foldl_lastStep_proj :
    ∀ (l : List RawPost) (gs : List Group) (sgs : List SpecGroup),
    gs.map projGroup = sgs.map projSpecGroup →
    (l.foldl lastStep gs).map projGroup
      = (l.foldl specStep sgs).map projSpecGroup := by
  intro l
  induction l with
  | nil => intro gs sgs h; exact h
  | cons p l ih =>
    intro gs sgs h
    rw [List.foldl_cons, List.foldl_cons]
    exact ih (lastStep gs p) (specStep sgs p) (lastStep_proj h p)

/-! ### Sample inputs used by the witnesses -/

def samplePost : RawPost :=
  ⟨"typing-date-strings", "Typing date strings", "s", "5 min read", "2022-03-03"⟩

def samplePost2 : RawPost :=
  ⟨"node-with-PM2", "Node with PM2", "s", "7 min read", "2021-10-07"⟩

def samplePost3 : RawPost :=
  ⟨"clean-apis", "Clean APIs", "s", "6 min read", "2022-03-30"⟩

def badPost : RawPost :=
  ⟨"bad", "Bad", "s", "1 min read", "not-a-date"⟩

def sampleGroup : Group := ⟨"March 2022", 2, [samplePost]⟩

def sampleSorted : List RawPost := [samplePost3, samplePost, samplePost2]

def sampleGroups : List Group :=
  [⟨"March 2022", 2, [samplePost3, samplePost]⟩,
   ⟨"October 2021", 9, [samplePost2]⟩]

lemma sample_ok : getStaticProps [samplePost] = Except.ok [sampleGroup] := by
  show (sortPosts [samplePost]).foldlM addPost [] = Except.ok [sampleGroup]
  rw [show sortPosts [samplePost] = [samplePost] from
    List.mergeSort_singleton samplePost]
  rfl

/-! ### The claims -/

/-- C1: for every input sequence of post records, every input post appears
in exactly one group of the builder's output: the multiset of posts across
all returned groups equals the input multiset (no duplication, no loss),
and the empty input yields zero groups. -/
theorem c1_builder_partitions_input (posts : List RawPost) (gs : List Group)
    (h : getStaticProps posts = Except.ok gs) :
    (gs.flatMap Group.blogPosts).Perm posts ∧ (posts = [] → gs = []) := by
  obtain ⟨-, hflat, hgs, -⟩ := getStaticProps_ok_main h
  refine ⟨?_, ?_⟩
  · rw [hflat]
    exact sortPosts_perm posts
  · intro hnil
    subst hnil
    simpa [sortPosts] using hgs

theorem c1_witness :
    (([sampleGroup].flatMap Group.blogPosts).Perm [samplePost]) ∧
    ([samplePost] = [] → [sampleGroup] = []) :=
  c1_builder_partitions_input [samplePost] [sampleGroup] sample_ok

/-- C2: for every input whose build succeeds, the returned groups are
ordered by their represented calendar month, descending: every post of an
earlier group has a month key at least that of every post of a later
group. -/
theorem c2_groups_month_descending (posts : List RawPost) (gs : List Group)
    (h : getStaticProps posts = Except.ok gs) :
    gs.Pairwise (fun g₁ g₂ => ∀ p ∈ g₁.blogPosts, ∀ q ∈ g₂.blogPosts,
      pMonthKey q ≤ pMonthKey p) := by
  obtain ⟨⟨hwfg, hwfp⟩, -, -, -⟩ := getStaticProps_ok_main h
  refine List.Pairwise.imp_of_mem ?_ hwfp
  intro g₁ g₂ hg₁ hg₂ hlt p hp q hq
  have e₁ := pMonthKey_eq_gKey (hwfg g₁ hg₁) hp
  have e₂ := pMonthKey_eq_gKey (hwfg g₂ hg₂) hq
  omega

theorem c2_witness :
    [sampleGroup].Pairwise (fun g₁ g₂ => ∀ p ∈ g₁.blogPosts,
      ∀ q ∈ g₂.blogPosts, pMonthKey q ≤ pMonthKey p) :=
  c2_groups_month_descending [samplePost] [sampleGroup] sample_ok

/-- C3: for every input whose build succeeds, the posts inside each
returned group are ordered by `publishedAt` descending (non-increasing
time key). -/
theorem c3_posts_in_group_descending (posts : List RawPost) (gs : List Group)
    (h : getStaticProps posts = Except.ok gs) :
    ∀ g ∈ gs, g.blogPosts.Pairwise (fun a b => pKey b ≤ pKey a) := by
  obtain ⟨⟨hwfg, -⟩, -, -, -⟩ := getStaticProps_ok_main h
  exact fun g hg => (hwfg g hg).2.2

theorem c3_witness :
    (Group.blogPosts sampleGroup).Pairwise (fun a b => pKey b ≤ pKey a) :=
  c3_posts_in_group_descending [samplePost] [sampleGroup] sample_ok
    sampleGroup (List.mem_cons_self _ _)

/-- C4: every post of every returned group has a parseable `publishedAt`,
and the label of the group it was placed in is exactly the full month name
followed by the four-digit year of that date. -/
theorem c4_group_label_from_post_date (posts : List RawPost) (gs : List Group)
    (h : getStaticProps posts = Except.ok gs) :
    ∀ g ∈ gs, ∀ p ∈ g.blogPosts, ∃ d, parseISO p.publishedAt = some d ∧
      g.month = monthName d.month ++ " " ++ yyyyFormat d.year := by
  obtain ⟨⟨hwfg, -⟩, -, -, -⟩ := getStaticProps_ok_main h
  intro g hg p hp
  obtain ⟨hv, hl⟩ := (hwfg g hg).2.1 p hp
  obtain ⟨d, hd⟩ := Option.isSome_iff_exists.mp hv
  refine ⟨d, hd, ?_⟩
  rw [← hl]
  simp [labelOf, hd, formatMMMMyyyy]

theorem c4_witness :
    ∃ d, parseISO samplePost.publishedAt = some d ∧
      Group.month sampleGroup = monthName d.month ++ " " ++ yyyyFormat d.year :=
  c4_group_label_from_post_date [samplePost] [sampleGroup] sample_ok
    sampleGroup (List.mem_cons_self _ _) samplePost (List.mem_cons_self _ _)

/-- C5: on any input sequence already sorted by `publishedAt` descending,
the grouping of the code (find-first matching group, then push) produces
exactly the same sequence of (label, posts) pairs as the spec's reference
fold (append to the most recently created group when its label matches,
else start a new group). -/
theorem c5_grouping_refines_spec (posts : List RawPost) (gs : List Group)
    (hsorted : posts.Pairwise (fun a b => pKey b ≤ pKey a))
    (h : posts.foldlM addPost [] = Except.ok gs) :
    gs.map (fun g => (g.month, g.blogPosts))
      = (specGrouping posts).map (fun g => (g.monthLabel, g.posts)) := by
  have hval : ∀ p ∈ posts, validPost p := foldlM_addPost_valid _ _ _ h
  have hok := foldlM_addPost_ok posts [] hval
  have hgs : gs = posts.foldl stepOf [] := by
    have hh := hok.symm.trans h
    injection hh with hh'
    exact hh'.symm
  have hmain := foldl_stepOf_main posts [] hval hsorted
    ⟨by simp, by simp⟩ (by simp)
  have hproj := foldl_lastStep_proj posts [] [] rfl
  subst hgs
  rw [hmain.2.2]
  exact hproj

theorem c5_witness :
    sampleGroups.map (fun g => (g.month, g.blogPosts))
      = (specGrouping sampleSorted).map (fun g => (g.monthLabel, g.posts)) :=
  c5_grouping_refines_spec sampleSorted sampleGroups (by decide) (by rfl)

/-- C6: for every non-empty `externalUrl`, the banner link classification
is the fixed first-match-wins chain: "blog.logrocket.com" gives label
"LogRocket" with the rocket icon; otherwise "javascript.plainenglish.io"
gives "Medium" with the Medium icon; otherwise "freecodecamp.org" gives
"FreeCodeCamp" with the FreeCodeCamp icon; otherwise label "external" with
no icon.  `classifyUrl` is total, so no input string fails. -/
theorem c6_banner_link_classification (url : String) (hne : url ≠ "") :
    (isLogRocketUrl url = true →
      classifyUrl url = ("LogRocket", some BannerIcon.rocket)) ∧
    (isLogRocketUrl url = false → isMediumUrl url = true →
      classifyUrl url = ("Medium", some BannerIcon.medium)) ∧
    (isLogRocketUrl url = false → isMediumUrl url = false →
      isFreeCodeCampUrl url = true →
      classifyUrl url = ("FreeCodeCamp", some BannerIcon.freeCodeCamp)) ∧
    (isLogRocketUrl url = false → isMediumUrl url = false →
      isFreeCodeCampUrl url = false →
      classifyUrl url = ("external", none)) := by
  refine ⟨?_, ?_, ?_, ?_⟩
  · intro h1
    simp [classifyUrl, h1]
  · intro h1 h2
    simp [classifyUrl, h1, h2]
  · intro h1 h2 h3
    simp [classifyUrl, h1, h2, h3]
  · intro h1 h2 h3
    simp [classifyUrl, h1, h2, h3]

theorem c6_witness :
    classifyUrl ("https://blog.logrocket.com/a")
      = ("LogRocket", some BannerIcon.rocket) :=
  (c6_banner_link_classification ("https://blog.logrocket.com/a")
    (by decide)).1 (by rfl)

/-- C7: when `externalUrl` is absent (`undefined`) or the empty string,
`BlogBanner` renders no link element at all, whatever the banner image
string is. -/
theorem c7_absent_externalUrl_no_link (banner : String) :
    renderBannerLink banner none = BannerLink.noLink ∧
    renderBannerLink banner (some ("")) = BannerLink.noLink := by
  by_cases hb : banner = "" <;> simp [renderBannerLink, hb]

/-- C8: a single unparseable `publishedAt` anywhere in the input makes the
builder fail with the RangeError raised by `format`, returning an error
and no group list at all. -/
theorem c8_invalid_date_fails_build (posts : List RawPost) (p : RawPost)
    (hp : p ∈ posts) (hbad : parseISO p.publishedAt = none) :
    getStaticProps posts = Except.error ("Invalid time value") :=
  foldlM_addPost_error (sortPosts posts) [] p (sortPosts_mem.mpr hp) hbad

theorem c8_witness :
    getStaticProps [badPost] = Except.error ("Invalid time value") :=
  c8_invalid_date_fails_build [badPost] badPost (by simp) (by rfl)

/-- C9: the builder is a deterministic pure function of its input, and a
second run over the array left behind by the first run's in-place sort
(i.e. over the sorted input) produces the identical output. -/
theorem c9_builder_deterministic_idempotent (posts : List RawPost)
    (hval : ∀ p ∈ posts, validPost p) :
    getStaticProps posts = getStaticProps posts ∧
    getStaticProps (sortPosts posts) = getStaticProps posts := by
  refine ⟨rfl, ?_⟩
  show (sortPosts (sortPosts posts)).foldlM addPost [] = _
  rw [sortPosts_idem hval]
  rfl

theorem c9_witness :
    getStaticProps [samplePost] = getStaticProps [samplePost] ∧
    getStaticProps (sortPosts [samplePost]) = getStaticProps [samplePost] :=
  c9_builder_deterministic_idempotent [samplePost] (by decide)

/-- C10: the banner link is nested inside the `{banner && ...}` branch, so
when the banner image string is empty no link is rendered, even for a
non-empty `externalUrl`. -/
theorem c10_no_banner_no_link (externalUrl : Option String) :
    renderBannerLink ("") externalUrl = BannerLink.noLink := by
  simp [renderBannerLink]

end Site
